import Mathlib

/-!
A shallow embedding of the HashTab library (hashtab.c / hashtab.h, version 2.2.0).

Modelling conventions:
- a C linklist chain is a Lean `List`; the NULL pointer is the empty list;
- the C `cmp` callback returns 0 for equal items; here `cmp k y = true` means
  equal, with the needle as the first argument, exactly as in the C call sites;
- the C `float threshold` and the load-factor arithmetic are modelled over the
  rationals, which is exact for the comparisons the library performs;
- `size_t` values are modelled as `Nat`; the library doubles sizes and never
  approaches the wrap-around of a 64-bit counter on the inputs considered here;
- each table in a migration chain stores its own `threshold`, `moveR` and
  `shrink` the way the C struct does; the function pointers `hasher` and `cmp`
  are identical in every table of a chain (hashtab_make copies them), so they
  are passed as parameters of the operations instead of being stored;
- `hashtab_add` recurses into a sibling freshly allocated by hashtab_grow; on a
  table whose threshold is negative the C code recurses forever (every freshly
  grown empty sibling immediately grows again), so the embedding of add is
  fuel-indexed and returns `none` exactly on that divergent path.
-/

namespace HashTab

set_option linter.unusedVariables false

variable {α : Type} {β : Type}

/-- One hash table of the migration chain: the fields of `struct hashtab`
except `hasher`, `cmp` (passed as operation parameters) and `other`
(represented by the chain structure `Hashtab` below). `data` is the allocated
bucket array; its length can exceed `size` after a shrink, because the C code
reallocates to the old byte count there. -/
structure Core (α : Type) where
  length : Nat
  size : Nat
  first : Nat
  threshold : ℚ
  moveR : Nat
  shrink : Nat
  grows : Nat
  shrinks : Nat
  data : List (List α)
deriving DecidableEq, Repr

/-- A hash table together with its chain of `other` (sibling) tables:
`leaf c` is a table with `other == NULL`, `node c o` one with `other == &o`. -/
inductive Hashtab (α : Type) : Type where
  | leaf (c : Core α)
  | node (c : Core α) (o : Hashtab α)
deriving DecidableEq, Repr

/-- The `Core` of the top table of a chain. -/
def Hashtab.core : Hashtab α → Core α
  | .leaf c => c
  | .node c _ => c

/-- The `other` pointer of the top table of a chain. -/
def Hashtab.sub : Hashtab α → Option (Hashtab α)
  | .leaf _ => none
  | .node _ o => some o

/-- Replace the top `Core` of a chain, keeping the `other` chain. -/
def Hashtab.withCore : Hashtab α → Core α → Hashtab α
  | .leaf _, c => .leaf c
  | .node _ o, c => .node c o

/-- How many siblings hang off a table: 0 in steady state, 1 during a plain
migration, 2 or more when a sibling has grown a sibling of its own. -/
def siblingDepth : Hashtab α → Nat
  | .leaf _ => 0
  | .node _ o => siblingDepth o + 1

/-- linklist_find, returning the stored item of the found link. -/
def linklist_find (cmp : α → α → Bool) (k : α) : List α → Option α
  | [] => none
  | y :: ys => if cmp k y then some y else linklist_find cmp k ys

/-- linklist_remove: drops the first link whose item compares equal to `k` and
reports that item (the `*ret` out-parameter). -/
def linklist_remove (cmp : α → α → Bool) (k : α) : List α → Option α × List α
  | [] => (none, [])
  | y :: ys =>
    if cmp k y then (some y, ys)
    else
      let r := linklist_remove cmp k ys
      (r.1, y :: r.2)

/-- hashtab_addLink: prepend one link to its bucket, bump `length`, lower
`first` if the new bucket index is smaller. -/
def hashtab_addLink (hasher : α → Nat) (c : Core α) (x : α) : Core α :=
  let hash := hasher x % c.size
  { c with
      data := c.data.set hash (x :: c.data.getD hash []),
      length := c.length + 1,
      first := if hash < c.first then hash else c.first }

/-- hashtab_linkAdd: add every link of a chain, in chain order; the C return
value (the number of links added) is the length of the list. -/
def hashtab_linkAdd (hasher : α → Nat) (c : Core α) (l : List α) : Core α :=
  l.foldl (hashtab_addLink hasher) c

/-- The loop of hashtab_findFirst, structurally recursive on the remaining
distance `size - i` so that it reduces in the kernel: when the fuel is 0 the
loop condition `i < size` is false. -/
def hashtab_findFirstAux (data : List (List α)) : Nat → Nat → Nat
  | 0, i => i
  | n + 1, i =>
    match data.getD i [] with
    | [] => hashtab_findFirstAux data n (i + 1)
    | _ :: _ => i

/-- hashtab_findFirst: first index `i ≤ j < size` with a non-empty bucket,
else `size` (the C loop `for(; i < size && data[i] == NULL; ++i)`). -/
def hashtab_findFirst (data : List (List α)) (size : Nat) (i : Nat) : Nat :=
  hashtab_findFirstAux data (size - i) i

/-- The loop of hashtab_moveOver: up to `n` iterations, each draining the
bucket at `first` of the old table `c` into the sibling core `o`. -/
def hashtab_moveOverLoop (hasher : α → Nat) : Nat → Core α → Core α → Core α × Core α
  | 0, c, o => (c, o)
  | n + 1, c, o =>
    if 0 < c.length then
      let link := c.data.getD c.first []
      let o' := hashtab_linkAdd hasher o link
      let c' := { c with
        data := c.data.set c.first [],
        length := c.length - link.length }
      let c'' := { c' with first := hashtab_findFirst c'.data c'.size c'.first }
      hashtab_moveOverLoop hasher n c'' o'
    else (c, o)

/-- The merge at the end of hashtab_moveOver: the old table adopts the data,
size, length and first of the sibling, keeping all its other fields. -/
def mergeCore (c o : Core α) : Core α :=
  { c with data := o.data, size := o.size, length := o.length, first := o.first }

/-- hashtab_moveOver: run `size / moveR` migration iterations, then merge the
sibling back when the old table has drained. The C code sets
`ht->other = NULL` at the merge, so a sibling of the sibling is dropped there.
The C callers only invoke this with `ht->other != NULL`; on a `leaf` the
embedding returns the table unchanged. -/
def hashtab_moveOver (hasher : α → Nat) : Hashtab α → Hashtab α
  | .leaf c => .leaf c
  | .node c o =>
    let p := hashtab_moveOverLoop hasher (c.size / c.moveR) c o.core
    if p.1.length = 0 then .leaf (mergeCore p.1 p.2)
    else .node p.1 (o.withCore p.2)

/-- One iteration of the hashtab_rehashLink loop: re-insert one link at its
hash modulo `newSize` and track the smallest index used. -/
def rehashStep (hasher : α → Nat) (newSize : Nat)
    (acc : List (List α) × Nat) (x : α) : List (List α) × Nat :=
  let hash := hasher x % newSize
  (acc.1.set hash (x :: acc.1.getD hash []),
   if hash < acc.2 then hash else acc.2)

/-- hashtab_rehashLink: re-insert every link of one chain into the bucket
array at its hash modulo `newSize`, tracking the smallest index used
(initialised to `newSize`). -/
def hashtab_rehashLink (hasher : α → Nat) (newSize : Nat) (l : List α)
    (nd : List (List α)) : List (List α) × Nat :=
  l.foldl (rehashStep hasher newSize) (nd, newSize)

/-- The loop of hashtab_rehash over the old slots `i, i+1, ...` (`n` slots
remaining): drain each non-empty slot and re-hash its chain in place. -/
def hashtab_rehashLoop (hasher : α → Nat) (newSize : Nat) :
    Nat → Nat → List (List α) × Nat → List (List α) × Nat
  | 0, _, acc => acc
  | n + 1, i, acc =>
    match acc.1.getD i [] with
    | [] => hashtab_rehashLoop hasher newSize n (i + 1) acc
    | l =>
      let nd0 := acc.1.set i []
      let p := hashtab_rehashLink hasher newSize l nd0
      hashtab_rehashLoop hasher newSize n (i + 1)
        (p.1, if p.2 < acc.2 then p.2 else acc.2)

/-- hashtab_rehash: grow the allocation first when enlarging (the shrink
branch reallocates to the old byte count, so the allocation keeps its length),
re-hash every old slot in place, set `first` and the new `size`. -/
def hashtab_rehash (hasher : α → Nat) (c : Core α) (newSize : Nat) : Core α :=
  let data0 := if c.size < newSize
    then c.data.take c.size ++ List.replicate (newSize - c.size) ([] : List α)
    else c.data
  let p := hashtab_rehashLoop hasher newSize c.size 0 (data0, newSize)
  { c with data := p.1, first := p.2, size := newSize }

/-- The body of hashtab_make: `shrink` is the initial size when shrinking is
requested, else 0; `first` starts at `size`; all buckets empty. -/
def makeCore (size : Nat) (threshold : ℚ) (moveR : Nat) (shrinkFlag : Bool) :
    Core α :=
  { length := 0, size := size, first := size, threshold := threshold,
    moveR := moveR, shrink := if shrinkFlag then size else 0,
    grows := 0, shrinks := 0, data := List.replicate size [] }

/-- hashtab_make. -/
def hashtab_make (size : Nat) (threshold : ℚ) (moveR : Nat) (shrinkFlag : Bool) :
    Hashtab α :=
  .leaf (makeCore size threshold moveR shrinkFlag)

/-- hashtab_grow: with `moveR == 1` an immediate full rehash to double size,
otherwise a fresh sibling of double size; the sibling inherits threshold and
moveR, and its shrink flag is the truth value of the old `shrink` field. -/
def hashtab_grow (hasher : α → Nat) (c : Core α) : Hashtab α :=
  if c.moveR = 1 then
    let c' := hashtab_rehash hasher c (c.size * 2)
    .leaf { c' with grows := c'.grows + 1 }
  else
    .node { c with grows := c.grows + 1 }
      (.leaf (makeCore (c.size * 2) c.threshold c.moveR (c.shrink != 0)))

/-- hashtab_length: own count plus, recursively, the sibling count. -/
def hashtab_length : Hashtab α → Nat
  | .leaf c => c.length
  | .node c o => c.length + hashtab_length o

/-- The hashtab_load macro: `hashtab_length / size` of the given table,
written with `mkRat` so that it evaluates by kernel reduction
(`hashtab_load_eq` below relates it to the division form). -/
def hashtab_load (t : Hashtab α) : ℚ :=
  mkRat (hashtab_length t : Int) t.core.size

/-- The quantity `1 - th` of the shrink test, written with `mkRat` so that it
evaluates by kernel reduction (`oneMinusQ_eq` below). -/
def oneMinusQ (th : ℚ) : ℚ :=
  mkRat ((th.den : Int) - th.num) th.den

/-- hashtab_add, indexed by recursion fuel. The C function recurses into
`ht->other`; when growth just created that sibling the recursion target is a
fresh empty table, which with a negative threshold grows again immediately and
the C code never returns (fuel exhaustion, `none`). The returned number is
`ht->length` of the top table after the operation. -/
def hashtab_addF (hasher : α → Nat) : Nat → Hashtab α → α → Option (Nat × Hashtab α)
  | 0, _, _ => none
  | fuel + 1, .leaf c, x =>
    if hashtab_load (.leaf c) > c.threshold then
      match hashtab_grow hasher c with
      | .leaf c1 =>
        let c2 := hashtab_addLink hasher c1 x
        some (c2.length, .leaf c2)
      | .node c1 o1 =>
        match hashtab_addF hasher fuel o1 x with
        | none => none
        | some (_, o1') =>
          let t' := hashtab_moveOver hasher (.node c1 o1')
          some (t'.core.length, t')
    else
      let c2 := hashtab_addLink hasher c x
      some (c2.length, .leaf c2)
  | fuel + 1, .node c o, x =>
    match hashtab_addF hasher fuel o x with
    | none => none
    | some (_, o') =>
      let t' := hashtab_moveOver hasher (.node c o')
      some (t'.core.length, t')

/-- hashtab_add: fuel `siblingDepth t + 2` is exactly the C recursion depth
(one level per existing sibling, plus at most one grow step into a fresh
sibling that does not itself grow unless the threshold is negative). -/
def hashtab_add (hasher : α → Nat) (t : Hashtab α) (x : α) :
    Option (Nat × Hashtab α) :=
  hashtab_addF hasher (siblingDepth t + 2) t x

/-- hashtab_find (hashtab_findLink followed by taking the item): probe the
bucket of the key in this table, then recurse into the sibling. -/
def hashtab_find (hasher : α → Nat) (cmp : α → α → Bool) :
    Hashtab α → α → Option α
  | .leaf c, k => linklist_find cmp k (c.data.getD (hasher k % c.size) [])
  | .node c o, k =>
    match linklist_find cmp k (c.data.getD (hasher k % c.size) []) with
    | some v => some v
    | none => hashtab_find hasher cmp o k

/-- Search one bucket for the first link equal to `x` and overwrite its item
in place (the `link->item = item` of hashtab_insert), returning the old item. -/
def bucketFindReplace (cmp : α → α → Bool) (x : α) : List α → Option (α × List α)
  | [] => none
  | y :: ys =>
    if cmp x y then some (y, x :: ys)
    else
      match bucketFindReplace cmp x ys with
      | none => none
      | some (v, zs) => some (v, y :: zs)

/-- The found-branch of hashtab_insert: locate the link hashtab_findLink
would return (bucket of this table, then sibling) and overwrite its item. -/
def hashtab_findReplace (hasher : α → Nat) (cmp : α → α → Bool) :
    Hashtab α → α → Option (α × Hashtab α)
  | .leaf c, x =>
    let hash := hasher x % c.size
    match bucketFindReplace cmp x (c.data.getD hash []) with
    | none => none
    | some (v, b') => some (v, .leaf { c with data := c.data.set hash b' })
  | .node c o, x =>
    let hash := hasher x % c.size
    match bucketFindReplace cmp x (c.data.getD hash []) with
    | some (v, b') => some (v, .node { c with data := c.data.set hash b' } o)
    | none =>
      match hashtab_findReplace hasher cmp o x with
      | none => none
      | some (v, o') => some (v, .node c o')

/-- hashtab_insert: replace in place when found, else exactly hashtab_add;
returns the old item, or `none` after an add. -/
def hashtab_insert (hasher : α → Nat) (cmp : α → α → Bool) (t : Hashtab α)
    (x : α) : Option (Option α × Hashtab α) :=
  match hashtab_findReplace hasher cmp t x with
  | some (v, t') => some (some v, t')
  | none =>
    match hashtab_add hasher t x with
    | none => none
    | some (_, t') => some (none, t')

/-- hashtab_remove. In the sibling case the C code always runs one
hashtab_moveOver step, whether or not the removal succeeded; in the steady
case a successful removal advances `first` when needed and then evaluates the
shrink condition. -/
def hashtab_remove (hasher : α → Nat) (cmp : α → α → Bool) :
    Hashtab α → α → Option α × Hashtab α
  | .leaf c, k =>
    let hash := hasher k % c.size
    let r := linklist_remove cmp k (c.data.getD hash [])
    let c1 := { c with data := c.data.set hash r.2 }
    match r.1 with
    | none => (none, .leaf c1)
    | some v =>
      let c2 := { c1 with length := c1.length - 1 }
      let c3 := if hash = c2.first
        then { c2 with first := hashtab_findFirst c2.data c2.size hash }
        else c2
      if c3.shrink ≠ 0 ∧ c3.shrink < c3.size ∧
          hashtab_load (.leaf c3) < oneMinusQ c3.threshold then
        let c4 := hashtab_rehash hasher c3 (max (c3.size / 2) c3.shrink)
        (some v, .leaf { c4 with shrinks := c4.shrinks + 1 })
      else (some v, .leaf c3)
  | .node c o, k =>
    let hash := hasher k % c.size
    let r := linklist_remove cmp k (c.data.getD hash [])
    let c1 := { c with data := c.data.set hash r.2 }
    match r.1 with
    | none =>
      let p := hashtab_remove hasher cmp o k
      (p.1, hashtab_moveOver hasher (.node c1 p.2))
    | some v =>
      let c2 := { c1 with length := c1.length - 1 }
      (some v, hashtab_moveOver hasher (.node c2 o))

/-- All items stored anywhere in the chain, in bucket order. -/
def htItems : Hashtab α → List α
  | .leaf c => c.data.flatten
  | .node c o => c.data.flatten ++ htItems o

/-- The size-and-floor invariant of reachable tables: every table keeps its
size at or above its own shrink floor, a sibling is at least as large as the
table that created it, and a sibling with shrinking enabled has its floor at
or above the creator size (hashtab_make gives the sibling floor 2 times the
creator size). These facts make the merge of hashtab_moveOver monotone in
size. -/
def HtInv : Hashtab α → Prop
  | .leaf c => c.shrink ≤ c.size
  | .node c o => c.shrink ≤ c.size ∧ HtInv o ∧ c.size ≤ o.core.size ∧
      (c.size ≤ o.core.shrink ∨ o.core.shrink = 0)

/-- One call of the public mutating interface. -/
inductive HtOp (α : Type) where
  | add (x : α)
  | ins (x : α)
  | rem (k : α)
deriving DecidableEq, Repr

/-- Apply one operation, keeping the resulting table. -/
def runOp (hasher : α → Nat) (cmp : α → α → Bool) (t : Hashtab α) :
    HtOp α → Option (Hashtab α)
  | .add x => (hashtab_add hasher t x).map (·.2)
  | .ins x => (hashtab_insert hasher cmp t x).map (·.2)
  | .rem k => some (hashtab_remove hasher cmp t k).2

/-- Apply a sequence of operations. -/
def runOps (hasher : α → Nat) (cmp : α → α → Bool) :
    Hashtab α → List (HtOp α) → Option (Hashtab α)
  | t, [] => some t
  | t, op :: ops =>
    match runOp hasher cmp t op with
    | none => none
    | some t' => runOps hasher cmp t' ops

/-! Concrete instantiations used by the counterexamples and witnesses. -/

/-- Identity hash on naturals. -/
def natHash : Nat → Nat := fun n => n

/-- Equality comparison on naturals (the C cmp returning 0 becomes `true`). -/
def natEq : Nat → Nat → Bool := fun a b => a == b

/-- Key projection hash for key-value pairs. -/
def pairHash : Nat × Nat → Nat := fun p => p.1

/-- Key-only comparison for key-value pairs. -/
def pairEq : Nat × Nat → Nat × Nat → Bool := fun a b => a.1 == b.1

/-- Size 1, threshold 1/2, moveR 2, no shrinking: the second add starts a
migration that `size / moveR = 0` never advances. -/
def tabA : Hashtab Nat := hashtab_make 1 (mkRat 1 2) 2 false

/-- Four adds of distinct keys (reaching a sibling-of-a-sibling), then one
successful remove that triggers the sibling-losing merge. -/
def opsA : List (HtOp Nat) := [.add 0, .add 1, .add 2, .add 3, .rem 0]

/-- The four adds of `opsA` alone: they reach a state where the sibling has a
sibling of its own. -/
def opsA4 : List (HtOp Nat) := [.add 0, .add 1, .add 2, .add 3]

/-- Same table as `tabA` but with moveR 1: growth is an immediate rehash. -/
def tabB1 : Hashtab Nat := hashtab_make 1 (mkRat 1 2) 1 false

/-- Same table as `tabA` but with moveR 8. -/
def tabB8 : Hashtab Nat := hashtab_make 1 (mkRat 1 2) 8 false

/-- Size 1, threshold 1/2, moveR 3: migration steps move `1 / 3 = 0` and
`2 / 3 = 0` buckets, so nested siblings persist until a remove drains the
top table. -/
def tabC : Hashtab Nat := hashtab_make 1 (mkRat 1 2) 3 false

/-- Size 4, threshold 1/2, moveR 4, no shrinking. -/
def tabD : Hashtab Nat := hashtab_make 4 (mkRat 1 2) 4 false

/-- `tabD` after adding 0, 1, 2, 3: a migration is in progress (the fourth
add grew the table) and keys 5, 6, 7 are absent. -/
def tabDmig : Hashtab Nat := (runOps natHash natEq tabD opsA4).getD tabD

/-- `tabA` after adding item 0. -/
def tabA1 : Hashtab Nat := (runOps natHash natEq tabA [.add 0]).getD tabA

/-- `tabA1` after adding item 1 (the add that starts the migration). -/
def tabA2 : Hashtab Nat := ((hashtab_add natHash tabA1 1).map Prod.snd).getD tabA1

/-- Size 8, threshold 3/4, moveR 4, shrinking enabled (floor 8). -/
def tabE : Hashtab Nat := hashtab_make 8 (mkRat 3 4) 4 true

/-- A short workload on `tabE`. -/
def opsE : List (HtOp Nat) := [.add 1, .add 2, .rem 1, .rem 2]

/-- `tabE` after `opsE`. -/
def tabE2 : Hashtab Nat := (runOps natHash natEq tabE opsE).getD tabE

/-- A steady (sibling-free) table holding the item 1 twice in one bucket. -/
def tabF : Hashtab Nat :=
  (runOps natHash natEq (hashtab_make 4 (mkRat 3 4) 4 false) [.add 1, .add 1]).getD
    (hashtab_make 4 (mkRat 3 4) 4 false)

/-- The core of `tabF` (a steady table, so `tabF = .leaf tabFc`). -/
def tabFc : Core Nat := tabF.core

/-- `tabC` after adding 0 and 1: a migrating table whose moveR exceeds its
size. -/
def tabG : Hashtab Nat := (runOps natHash natEq tabC [.add 0, .add 1]).getD tabC

/-- The top core of `tabG`. -/
def tabGc : Core Nat := tabG.core

/-- The sibling of `tabG`. -/
def tabGo : Hashtab Nat := tabG.sub.getD tabG

/-!  Theorems.  First the bridge lemmas connecting the kernel-reducible
rational forms to the usual arithmetic, then small structural lemmas, then
the claim theorems. -/

/-- `hashtab_load` is the load factor `hashtab_length / size`. -/
theorem hashtab_load_eq (t : Hashtab α) :
    hashtab_load t = (hashtab_length t : ℚ) / (t.core.size : ℚ) := by
  rw [hashtab_load, Rat.mkRat_eq_div, Int.cast_natCast]

/-- `oneMinusQ` is `1 - th`. -/
theorem oneMinusQ_eq (th : ℚ) : oneMinusQ th = 1 - th := by
  have hd : ((th.den : ℚ)) ≠ 0 := by
    exact_mod_cast th.den_nz
  rw [oneMinusQ, Rat.mkRat_eq_div,
    show ((((th.den : Int) - th.num : Int)) : ℚ)
      = (th.den : ℚ) - (th.num : ℚ) by push_cast; ring,
    sub_div, div_self hd, Rat.num_div_den]

/-- Replacing the core of a chain by its own core is the identity. -/
theorem withCore_core (t : Hashtab α) : t.withCore t.core = t := by
  cases t <;> rfl

/-- A chain without sibling is a `leaf` on its own core. -/
theorem sub_eq_none_iff (t : Hashtab α) : t.sub = none ↔ t = .leaf t.core := by
  cases t <;> simp [Hashtab.sub, Hashtab.core]

/-- Claim C1 (code bug evaluation): on the size-1, threshold-1/2, moveR-2
table, after adding 0, 1, 2, 3 the item 3 is reachable, but the subsequent
remove of 0 (an operation that does not remove 3) drains the top table, and
the merge in hashtab_moveOver discards the sibling of the sibling, so find(3)
returns an absent result even though 3 was added and never removed. -/
theorem C1_lost_item :
    (runOps natHash natEq tabA opsA4).map
      (fun t => hashtab_find natHash natEq t 3) = some (some 3) ∧
    (runOps natHash natEq tabA opsA).map
      (fun t => hashtab_find natHash natEq t 3) = some none := by
  decide

/-- Claim C2 (code bug evaluation): same trace; after 4 adds and 1 successful
remove the externally visible size should be 3, but the merge dropped the
nested sibling and hashtab_length reports 1. -/
theorem C2_count_mismatch :
    (runOps natHash natEq tabA opsA4).map
      (fun t => (hashtab_remove natHash natEq t 0).1) = some (some 0) ∧
    (runOps natHash natEq tabA opsA4).map hashtab_length = some 4 ∧
    (runOps natHash natEq tabA opsA).map hashtab_length = some 1 := by
  decide

/-- Claim C3 counterexample: after four adds on the size-1, moveR-2 table the
sibling has a sibling of its own, so migrations do nest deeper than one
level in reachable states. -/
theorem C3_counterexample :
    (runOps natHash natEq tabA opsA4).map siblingDepth = some 2 := by
  decide

/-- Claim C3 amended: hashtab_grow itself creates at most a one-level
sibling (the fresh sibling of hashtab_make has no sibling); the nesting in
`C3_counterexample` arises from later adds that grow the sibling while the
migration is still in progress. -/
theorem C3_amended_thm (hasher : α → Nat) (c : Core α) :
    siblingDepth (hashtab_grow hasher c) ≤ 1 := by
  rw [hashtab_grow]
  split <;> simp [siblingDepth]

/-- Claim C4 counterexample: adding 1 to `tabA1` starts a migration and
returns 1 — the own count of the top table — while the externally visible
size of the resulting table is 2. -/
theorem C4_counterexample :
    (hashtab_add natHash tabA1 1).map Prod.fst = some 1 ∧
    (hashtab_add natHash tabA1 1).map (fun p => hashtab_length p.2) = some 2 := by
  decide

/-- Every `some` returned by the fuel-indexed add carries `ht->length` of the
resulting top table as its first component. -/
theorem hashtab_addF_fst (hasher : α → Nat) (fuel : Nat) (t : Hashtab α)
    (x : α) (r : Nat) (t' : Hashtab α)
    (h : hashtab_addF hasher fuel t x = some (r, t')) :
    r = t'.core.length := by
  match fuel, t with
  | 0, t => simp [hashtab_addF] at h
  | fuel + 1, .leaf c =>
    rw [hashtab_addF] at h
    split at h
    · split at h
      · simp only [Option.some.injEq, Prod.mk.injEq] at h
        obtain ⟨h1, h2⟩ := h
        subst h2; exact h1.symm
      · split at h
        · exact absurd h (by simp)
        · simp only [Option.some.injEq, Prod.mk.injEq] at h
          obtain ⟨h1, h2⟩ := h
          subst h2; exact h1.symm
    · simp only [Option.some.injEq, Prod.mk.injEq] at h
      obtain ⟨h1, h2⟩ := h
      subst h2; exact h1.symm
  | fuel + 1, .node c o =>
    rw [hashtab_addF] at h
    split at h
    · exact absurd h (by simp)
    · simp only [Option.some.injEq, Prod.mk.injEq] at h
      obtain ⟨h1, h2⟩ := h
      subst h2; exact h1.symm

/-- Claim C4 amended: hashtab_add returns the `length` field of the top table
it leaves behind — the items stored under this table excluding any sibling —
and this equals the externally visible total count exactly when no migration
is in progress after the add. -/
theorem C4_amended_thm (hasher : α → Nat) (t : Hashtab α) (x : α) (r : Nat)
    (t' : Hashtab α) (h : hashtab_add hasher t x = some (r, t')) :
    r = t'.core.length ∧ (t'.sub = none → r = hashtab_length t') := by
  rw [hashtab_add] at h
  have h1 := hashtab_addF_fst hasher _ t x r t' h
  refine ⟨h1, fun hs => ?_⟩
  cases t' with
  | leaf c => simpa [hashtab_length, Hashtab.core] using h1
  | node c o => simp [Hashtab.sub] at hs

/-- Witness for `C4_amended_thm` at the concrete migrating add of
`C4_counterexample`. -/
theorem C4_witness :
    1 = tabA2.core.length ∧ (tabA2.sub = none → 1 = hashtab_length tabA2) :=
  C4_amended_thm natHash tabA1 1 1 tabA2 (by decide)

/-- Claim C7 counterexample: in the migrating state `tabDmig` the key 7 is
absent, removing it returns an absent result, yet the table state changes,
because hashtab_remove runs a migration step whenever a sibling exists,
successful or not. -/
theorem C7_counterexample :
    hashtab_find natHash natEq tabDmig 7 = none ∧
    (hashtab_remove natHash natEq tabDmig 7).1 = none ∧
    ((hashtab_remove natHash natEq tabDmig 7).2 = tabDmig) = False := by
  decide

/-- Claim C8 (code bug evaluation): identical operations on identically
configured tables except moveR 1 versus moveR 8; the moveR-1 table answers
find(3) with item 3, the moveR-8 table loses item 3 in the sibling-dropping
merge and answers with an absent result. -/
theorem C8_divergent_find :
    (runOps natHash natEq tabB1 opsA).map
      (fun t => hashtab_find natHash natEq t 3) = some (some 3) ∧
    (runOps natHash natEq tabB8 opsA).map
      (fun t => hashtab_find natHash natEq t 3) = some none := by
  decide

/-- Claim C9 counterexample: the table `tabC` after four adds of the item 0
stores four items equal to the removal key; the successful remove of 0
returns one of them but leaves only 2 items, not 3 — the merge discarded a
nested sibling holding another copy. -/
theorem C9_counterexample :
    (runOps natHash natEq tabC (List.replicate 4 (.add 0))).map
      (fun t => ((hashtab_remove natHash natEq t 0).1, hashtab_length t,
        hashtab_length (hashtab_remove natHash natEq t 0).2))
      = some (some 0, 4, 2) := by
  decide

/-- Claim C10: when `moveR` exceeds `size`, the migration loop runs
`size / moveR = 0` iterations, so a migration step on a non-drained table is
the identity — no bucket moves, no length change — and the step merges (ends
the migration) exactly when the original table has already drained to length
zero, which only removals can cause. -/
theorem C10_theorem (hasher : α → Nat) (c : Core α) (o : Hashtab α)
    (hm : c.size < c.moveR) :
    (0 < c.length → hashtab_moveOver hasher (.node c o) = .node c o) ∧
    (c.length = 0 → hashtab_moveOver hasher (.node c o)
      = .leaf (mergeCore c o.core)) := by
  have hdiv : c.size / c.moveR = 0 := Nat.div_eq_of_lt hm
  rw [hashtab_moveOver, hdiv]
  constructor
  · intro hlen
    rw [hashtab_moveOverLoop]
    simp only [if_neg (by omega : ¬ c.length = 0)]
    rw [withCore_core]
  · intro h0
    rw [hashtab_moveOverLoop]
    simp only [if_pos h0]

/-- Witness for `C10_theorem` on the reachable migrating table `tabG`
(size 1, moveR 3, one item still unmigrated). -/
theorem C10_witness :
    hashtab_moveOver natHash (.node tabGc tabGo) = .node tabGc tabGo :=
  (C10_theorem natHash tabGc tabGo (by decide)).1 (by decide)

/-! Small list lemmas used by the remove and insert proofs. -/

/-- Writing back the value a slot already holds is the identity. -/
theorem set_getD_id (l : List β) (d : β) : ∀ i, l.set i (l.getD i d) = l := by
  induction l with
  | nil => intro i; rfl
  | cons a l ih =>
    intro i
    cases i with
    | zero => rfl
    | succ i => simpa [List.set, List.getD] using ih i

/-- Reading a slot just written. -/
theorem getD_set_self (l : List β) (i : Nat) (a d : β) (h : i < l.length) :
    (l.set i a).getD i d = a := by
  induction l generalizing i with
  | nil => simp at h
  | cons b l ih =>
    cases i with
    | zero => rfl
    | succ i => simpa [List.set, List.getD] using ih i (by simpa using h)

/-- Every bucket is part of the flattened item list. -/
theorem mem_getD_mem_flatten (l : List (List β)) (y : β) :
    ∀ i, y ∈ l.getD i [] → y ∈ l.flatten := by
  induction l with
  | nil => intro i hy; simp [List.getD] at hy
  | cons b l ih =>
    intro i hy
    cases i with
    | zero => exact List.mem_flatten.2 ⟨b, by simp, hy⟩
    | succ i =>
      simp only [List.getD] at hy
      exact List.mem_flatten.2 (by
        rcases List.mem_flatten.1 (ih i hy) with ⟨s, hs, hys⟩
        exact ⟨s, by simp [hs], hys⟩)

/-- All slots of a replicated empty bucket array read as empty. -/
theorem getD_replicate_nil (n : Nat) : ∀ i,
    (List.replicate n ([] : List β)).getD i [] = [] := by
  induction n with
  | zero => intro i; cases i <;> rfl
  | succ n ih =>
    intro i
    cases i with
    | zero => rfl
    | succ i => simp only [List.replicate, List.getD_cons_succ]; exact ih i

/-- Flattening an all-empty bucket array yields no items. -/
theorem flatten_replicate_nil (n : Nat) :
    (List.replicate n ([] : List β)).flatten = [] := by
  induction n with
  | zero => rfl
  | succ n ih => simp [List.replicate, ih]

/-- Flattening an empty bucket array with one written slot yields that
bucket. -/
theorem flatten_replicate_set (n : Nat) (b : List β) :
    ∀ i, i < n → ((List.replicate n ([] : List β)).set i b).flatten = b := by
  induction n with
  | zero => intro i h; omega
  | succ n ih =>
    intro i h
    cases i with
    | zero => simp [List.replicate, List.set, List.flatten_cons, flatten_replicate_nil]
    | succ i => simpa [List.replicate, List.set] using ih i (by omega)

/-- linklist_remove returns the first match and `List.eraseP` of the chain. -/
theorem linklist_remove_eq (cmp : α → α → Bool) (k : α) (l : List α) :
    linklist_remove cmp k l
      = (l.find? (fun y => cmp k y), l.eraseP (fun y => cmp k y)) := by
  induction l with
  | nil => rfl
  | cons y ys ih =>
    by_cases h : cmp k y
    · simp [linklist_remove, h, List.find?_cons, List.eraseP_cons]
    · simp [linklist_remove, h, List.find?_cons, List.eraseP_cons, ih]

/-- Claim C7 amended: removing an item present nowhere in the table returns
an absent result; if no sibling exists the table is left completely
unchanged, while with a sibling the code still performs a migration step, so
the state can change (see `C7_counterexample`). -/
theorem C7_amended_thm (hasher : α → Nat) (cmp : α → α → Bool)
    (t : Hashtab α) (k : α) (habs : ∀ y ∈ htItems t, cmp k y = false) :
    (hashtab_remove hasher cmp t k).1 = none ∧
    (t.sub = none → (hashtab_remove hasher cmp t k).2 = t) := by
  induction t with
  | leaf c =>
    have hb : ∀ y ∈ c.data.getD (hasher k % c.size) [], cmp k y = false :=
      fun y hy => habs y (mem_getD_mem_flatten c.data y _ hy)
    have hfind : (c.data.getD (hasher k % c.size) []).find?
        (fun y => cmp k y) = none :=
      List.find?_eq_none.2 (fun y hy => by simp [hb y hy])
    have herase : (c.data.getD (hasher k % c.size) []).eraseP
        (fun y => cmp k y) = c.data.getD (hasher k % c.size) [] :=
      List.eraseP_of_forall_not (fun y hy => by simp [hb y hy])
    rw [hashtab_remove, linklist_remove_eq, hfind, herase]
    refine ⟨rfl, fun _ => ?_⟩
    rw [set_getD_id c.data ([] : List α) (hasher k % c.size)]
  | node c o ih =>
    have hb : ∀ y ∈ c.data.getD (hasher k % c.size) [], cmp k y = false :=
      fun y hy => habs y (by
        rw [htItems]
        exact List.mem_append_left _ (mem_getD_mem_flatten c.data y _ hy))
    have hfind : (c.data.getD (hasher k % c.size) []).find?
        (fun y => cmp k y) = none :=
      List.find?_eq_none.2 (fun y hy => by simp [hb y hy])
    have hsub : ∀ y ∈ htItems o, cmp k y = false :=
      fun y hy => habs y (by rw [htItems]; exact List.mem_append_right _ hy)
    rw [hashtab_remove, linklist_remove_eq, hfind]
    exact ⟨(ih hsub).1, by intro h; simp [Hashtab.sub] at h⟩

/-- Witness for `C7_amended_thm`: removing the absent key 5 from the steady
table `tabF` returns an absent result and leaves the table unchanged. -/
theorem C7_witness :
    (hashtab_remove natHash natEq tabF 5).1 = none ∧
    (tabF.sub = none → (hashtab_remove natHash natEq tabF 5).2 = tabF) :=
  C7_amended_thm natHash natEq tabF 5 (by decide)

/-! The correspondence between hashtab_findLink-with-overwrite and
hashtab_find, used for the insert claim. -/

/-- The in-place bucket overwrite fails exactly when the bucket search
fails. -/
theorem bucketFindReplace_none_iff (cmp : α → α → Bool) (x : α) (b : List α) :
    bucketFindReplace cmp x b = none ↔ linklist_find cmp x b = none := by
  induction b with
  | nil => simp [bucketFindReplace, linklist_find]
  | cons y ys ih =>
    by_cases h : cmp x y
    · simp [bucketFindReplace, linklist_find, h]
    · rw [bucketFindReplace, linklist_find]
      simp only [h, if_false, Bool.false_eq_true]
      cases hr : bucketFindReplace cmp x ys with
      | none => simpa [hr] using ih.1 hr
      | some p => simp only [← ih, hr]; simp

/-- What the in-place bucket overwrite does when it succeeds: it returns the
item the bucket search finds, keeps the bucket length, and leaves the new
item as the first match of the rewritten bucket. -/
theorem bucketFindReplace_some (cmp : α → α → Bool) (x : α) (b : List α)
    (v : α) (b' : List α) (h : bucketFindReplace cmp x b = some (v, b')) :
    linklist_find cmp x b = some v ∧ b'.length = b.length ∧
      (cmp x x = true → linklist_find cmp x b' = some x) := by
  induction b generalizing b' with
  | nil => simp [bucketFindReplace] at h
  | cons y ys ih =>
    by_cases hy : cmp x y
    · rw [bucketFindReplace] at h
      simp only [hy, if_true, Option.some.injEq, Prod.mk.injEq] at h
      obtain ⟨rfl, rfl⟩ := h
      exact ⟨by simp [linklist_find, hy], by simp,
        fun hxx => by simp [linklist_find, hxx]⟩
    · rw [bucketFindReplace] at h
      simp only [hy, if_false, Bool.false_eq_true] at h
      cases hr : bucketFindReplace cmp x ys with
      | none => rw [hr] at h; simp at h
      | some p =>
        obtain ⟨v2, zs⟩ := p
        rw [hr] at h
        simp only [Option.some.injEq, Prod.mk.injEq] at h
        obtain ⟨rfl, rfl⟩ := h
        obtain ⟨f1, f2, f3⟩ := ih zs hr
        exact ⟨by simp [linklist_find, hy, f1], by simp [f2],
          fun hxx => by simp [linklist_find, hy, f3 hxx]⟩

/-- The overwriting search of hashtab_insert fails exactly when hashtab_find
fails. -/
theorem findReplace_none_iff (hasher : α → Nat) (cmp : α → α → Bool)
    (t : Hashtab α) (x : α) :
    hashtab_findReplace hasher cmp t x = none ↔
      hashtab_find hasher cmp t x = none := by
  induction t with
  | leaf c =>
    rw [hashtab_findReplace, hashtab_find]
    cases hr : bucketFindReplace cmp x (c.data.getD (hasher x % c.size) []) with
    | none => simpa using (bucketFindReplace_none_iff cmp x _).1 hr
    | some p =>
      obtain ⟨v, b'⟩ := p
      obtain ⟨f1, _, _⟩ := bucketFindReplace_some cmp x _ v b' hr
      rw [f1]
      simp
  | node c o ih =>
    rw [hashtab_findReplace, hashtab_find]
    cases hr : bucketFindReplace cmp x (c.data.getD (hasher x % c.size) []) with
    | none =>
      rw [(bucketFindReplace_none_iff cmp x _).1 hr]
      cases hro : hashtab_findReplace hasher cmp o x with
      | none => simpa [hro] using ih.1 hro
      | some p => obtain ⟨v, o'⟩ := p; simp only [← ih, hro]; simp
    | some p =>
      obtain ⟨v, b'⟩ := p
      obtain ⟨f1, _, _⟩ := bucketFindReplace_some cmp x _ v b' hr
      rw [f1]
      simp

/-- A non-empty bucket read proves the slot index is within the allocation. -/
theorem getD_ne_nil_lt (l : List (List β)) (i : Nat)
    (h : l.getD i [] ≠ []) : i < l.length := by
  by_contra hge
  exact h (List.getD_eq_default _ _ (by omega))

/-- What the overwriting search does when it succeeds: it returns exactly the
item hashtab_find returns, keeps every count, and afterwards hashtab_find
yields the new item (for a reflexive comparison). -/
theorem findReplace_some (hasher : α → Nat) (cmp : α → α → Bool)
    (t : Hashtab α) (x v : α) (t' : Hashtab α)
    (h : hashtab_findReplace hasher cmp t x = some (v, t')) :
    hashtab_find hasher cmp t x = some v ∧
    hashtab_length t' = hashtab_length t ∧
    (cmp x x = true → hashtab_find hasher cmp t' x = some x) := by
  induction t generalizing t' with
  | leaf c =>
    rw [hashtab_findReplace] at h
    cases hr : bucketFindReplace cmp x (c.data.getD (hasher x % c.size) []) with
    | none => rw [hr] at h; simp at h
    | some p =>
      obtain ⟨v2, b'⟩ := p
      rw [hr] at h
      simp only [Option.some.injEq, Prod.mk.injEq] at h
      obtain ⟨rfl, rfl⟩ := h
      obtain ⟨f1, f2, f3⟩ := bucketFindReplace_some cmp x _ v2 b' hr
      have hne : c.data.getD (hasher x % c.size) [] ≠ [] := by
        intro hnil
        rw [hnil] at hr
        simp [bucketFindReplace] at hr
      have hlt : hasher x % c.size < c.data.length := getD_ne_nil_lt _ _ hne
      refine ⟨by rw [hashtab_find, f1], by simp [hashtab_length], fun hxx => ?_⟩
    
      rw [hashtab_find]
      simp only [Hashtab.core]
      rw [getD_set_self _ _ _ _ hlt]
      exact f3 hxx
  | node c o ih =>
    rw [hashtab_findReplace] at h
    cases hr : bucketFindReplace cmp x (c.data.getD (hasher x % c.size) []) with
    | some p =>
      obtain ⟨v2, b'⟩ := p
      rw [hr] at h
      simp only [Option.some.injEq, Prod.mk.injEq] at h
      obtain ⟨rfl, rfl⟩ := h
      obtain ⟨f1, f2, f3⟩ := bucketFindReplace_some cmp x _ v2 b' hr
      have hne : c.data.getD (hasher x % c.size) [] ≠ [] := by
        intro hnil
        rw [hnil] at hr
        simp [bucketFindReplace] at hr
      have hlt : hasher x % c.size < c.data.length := getD_ne_nil_lt _ _ hne
      refine ⟨by rw [hashtab_find, f1], by simp [hashtab_length], fun hxx => ?_⟩
      rw [hashtab_find]
      rw [getD_set_self _ _ _ _ hlt]
      rw [f3 hxx]
    | none =>
      rw [hr] at h
      cases hro : hashtab_findReplace hasher cmp o x with
      | none => rw [hro] at h; simp at h
      | some p =>
        obtain ⟨v2, o2⟩ := p
        rw [hro] at h
        simp only [Option.some.injEq, Prod.mk.injEq] at h
        obtain ⟨rfl, rfl⟩ := h
        obtain ⟨f1, f2, f3⟩ := ih o2 hro
        have hb := (bucketFindReplace_none_iff cmp x _).1 hr
        refine ⟨by rw [hashtab_find, hb, f1], by simp [hashtab_length, f2],
          fun hxx => ?_⟩
        rw [hashtab_find, hb, f3 hxx]

/-- Claim C6: hashtab_insert behaves as find-then-overwrite when an equal
item exists (returning the old item, preserving all counts, making the new
item the one found afterwards), and behaves exactly as hashtab_add with an
absent result otherwise; in particular two inserts of key-equal items
v1 then v2 into a fresh table leave exactly the item v2 stored, reachable by
find, with the second insert returning v1. -/
theorem C6_theorem (hasher : α → Nat) (cmp : α → α → Bool) :
    (∀ (t : Hashtab α) (x : α), hashtab_find hasher cmp t x = none →
      hashtab_insert hasher cmp t x
        = (hashtab_add hasher t x).map (fun p => (none, p.2))) ∧
    (∀ (t : Hashtab α) (x v : α), hashtab_find hasher cmp t x = some v →
      ∃ t', hashtab_insert hasher cmp t x = some (some v, t') ∧
        hashtab_length t' = hashtab_length t ∧
        (cmp x x = true → hashtab_find hasher cmp t' x = some x)) ∧
    (∀ (size : Nat) (th : ℚ) (moveR : Nat) (sf : Bool) (v1 v2 : α),
      0 < size → 0 ≤ th →
      cmp v2 v1 = true → cmp v2 v2 = true → hasher v2 = hasher v1 →
      ∃ t1 t2,
        hashtab_insert hasher cmp (hashtab_make size th moveR sf) v1
          = some (none, t1) ∧
        hashtab_insert hasher cmp t1 v2 = some (some v1, t2) ∧
        htItems t2 = [v2] ∧ hashtab_find hasher cmp t2 v2 = some v2) := by
  refine ⟨fun t x hnone => ?_, fun t x v hsome => ?_, ?_⟩
  · rw [hashtab_insert, (findReplace_none_iff hasher cmp t x).2 hnone]
    cases hashtab_add hasher t x with
    | none => rfl
    | some p => rfl
  · cases hr : hashtab_findReplace hasher cmp t x with
    | none =>
      rw [(findReplace_none_iff hasher cmp t x).1 hr] at hsome
      exact absurd hsome (by simp)
    | some p =>
      obtain ⟨v2, t'⟩ := p
      obtain ⟨f1, f2, f3⟩ := findReplace_some hasher cmp t x v2 t' hr
      rw [hsome] at f1
      obtain rfl : v = v2 := by simpa using f1
      exact ⟨t', by rw [hashtab_insert, hr], f2, f3⟩
  · intro size th moveR sf v1 v2 hsize hth hv21 hv22 hhash
    set c0 : Core α := makeCore size th moveR sf with hc0
    have hdata0 : c0.data = List.replicate size [] := rfl
    have hsize0 : c0.size = size := rfl
    have hlen0 : c0.length = 0 := rfl
    set h1 : Nat := hasher v1 % size with hh1
    have hb0 : c0.data.getD h1 [] = [] := by
      rw [hdata0]; exact getD_replicate_nil size h1
    -- first insert: nothing is found, so it adds
    have hfr1 : hashtab_findReplace hasher cmp (.leaf c0) v1 = none := by
      rw [hashtab_findReplace, hsize0, ← hh1, hb0]
      rfl
    have hload0 : hashtab_load (.leaf c0) = 0 := by
      rw [hashtab_load_eq]
      simp [hashtab_length, hlen0, Hashtab.core]
    have hnogrow : ¬ hashtab_load (.leaf c0) > c0.threshold := by
      rw [hload0]
      exact not_lt.2 hth
    set c1 : Core α := hashtab_addLink hasher c0 v1 with hc1
    have hadd1 : hashtab_add hasher (.leaf c0) v1 = some (c1.length, .leaf c1) := by
      rw [hashtab_add, siblingDepth, hashtab_addF, if_neg hnogrow]
    have hins1 : hashtab_insert hasher cmp (.leaf c0) v1
        = some (none, .leaf c1) := by
      rw [hashtab_insert, hfr1, hadd1]
    -- the state after the first insert
    have hsize1 : c1.size = size := rfl
    have hdata1 : c1.data = (List.replicate size ([] : List α)).set h1 [v1] := by
      simp only [hc1, hashtab_addLink, hsize0, ← hh1, hdata0, getD_replicate_nil]
    have hlt1 : h1 < size := by
      rw [hh1]; exact Nat.mod_lt _ hsize
    have hlen_data1 : c1.data.length = size := by
      rw [hdata1, List.length_set, List.length_replicate]
    -- second insert: v1 is found in the bucket and overwritten by v2
    have hh2 : hasher v2 % c1.size = h1 := by rw [hsize1, hhash]
    have hb1 : c1.data.getD h1 [] = [v1] := by
      rw [hdata1]
      exact getD_set_self _ _ _ _ (by rw [List.length_replicate]; exact hlt1)
    have hbfr : bucketFindReplace cmp v2 (c1.data.getD (hasher v2 % c1.size) [])
        = some (v1, [v2]) := by
      rw [hh2, hb1, bucketFindReplace]
      simp [hv21]
    set c2 : Core α := { c1 with data := c1.data.set h1 [v2] } with hc2
    have hfr2 : hashtab_findReplace hasher cmp (.leaf c1) v2
        = some (v1, .leaf c2) := by
      rw [hashtab_findReplace, hbfr, hh2]
    have hins2 : hashtab_insert hasher cmp (.leaf c1) v2
        = some (some v1, .leaf c2) := by
      rw [hashtab_insert, hfr2]
    refine ⟨.leaf c1, .leaf c2, hins1, hins2, ?_, ?_⟩
    · rw [htItems]
      have : c2.data = (List.replicate size ([] : List α)).set h1 [v2] := by
        rw [hc2]
        simp only [hdata1, List.set_set]
      rw [this]
      exact flatten_replicate_set size [v2] h1 hlt1
    · rw [hashtab_find]
      have hs2 : c2.size = size := rfl
      have : c2.data.getD (hasher v2 % c2.size) [] = [v2] := by
        rw [hs2, hhash, ← hh1]
        show (c1.data.set h1 [v2]).getD h1 [] = [v2]
        exact getD_set_self _ _ _ _ (by rw [hlen_data1]; exact hlt1)
      rw [this, linklist_find]
      simp [hv22]

/-- Witness for `C6_theorem`: inserting the absent key 5 into the empty table
`tabA` behaves exactly like hashtab_add with an absent result. -/
theorem C6_witness :
    hashtab_insert natHash natEq tabA 5
      = (hashtab_add natHash tabA 5).map (fun p => (none, p.2)) :=
  (C6_theorem natHash natEq).1 tabA 5 (by decide)

/-! Multiset accounting for buckets, used for the duplicate-removal claim. -/

/-- Splitting the items of a bucket array at one slot. -/
theorem flatten_coe_getD_set (l : List (List β)) :
    ∀ i, (↑l.flatten : Multiset β)
      = ↑(l.getD i []) + ↑((l.set i []).flatten) := by
  induction l with
  | nil => intro i; cases i <;> rfl
  | cons b l ih =>
    intro i
    cases i with
    | zero =>
      simp only [List.flatten_cons, List.getD_cons_zero, List.set_cons_zero,
        ← Multiset.coe_add]
      simp
    | succ i =>
      simp only [List.flatten_cons, List.getD_cons_succ, List.set_cons_succ,
        ← Multiset.coe_add, ih i]
      exact add_left_comm _ _ _

/-- Writing a bucket replaces exactly that slot of the item multiset. -/
theorem flatten_coe_set (l : List (List β)) (i : Nat) (b : List β)
    (h : i < l.length) :
    (↑((l.set i b).flatten) : Multiset β) = ↑b + ↑((l.set i []).flatten) := by
  have h1 := flatten_coe_getD_set (l.set i b) i
  rwa [getD_set_self _ _ _ _ h, List.set_set] at h1

/-- A successful first-match search splits the chain multiset. -/
theorem find_coe_eraseP (p : β → Bool) (v : β) :
    ∀ l : List β, l.find? p = some v →
      (↑l : Multiset β) = v ::ₘ ↑(l.eraseP p) := by
  intro l
  induction l with
  | nil => intro h; simp at h
  | cons y ys ih =>
    intro h
    by_cases hy : p y
    · rw [List.find?_cons_of_pos _ hy] at h
      obtain rfl : y = v := by simpa using h
      rw [List.eraseP_cons_of_pos hy, ← Multiset.cons_coe]
    · rw [List.find?_cons_of_neg _ hy] at h
      rw [List.eraseP_cons_of_neg hy, ← Multiset.cons_coe,
        ← Multiset.cons_coe, ih h, Multiset.cons_swap]

/-- The rehashing of one chain preserves the overall item multiset and the
allocation length. -/
theorem rehashStep_foldl_items (hasher : α → Nat) (ns : Nat) (h0 : 0 < ns) :
    ∀ (l : List α) (nd : List (List α)) (f : Nat), ns ≤ nd.length →
      (↑((l.foldl (rehashStep hasher ns) (nd, f)).1.flatten) : Multiset α)
          = ↑l + ↑nd.flatten ∧
      (l.foldl (rehashStep hasher ns) (nd, f)).1.length = nd.length := by
  intro l
  induction l with
  | nil => intro nd f hle; simp
  | cons x xs ih =>
    intro nd f hle
    have hlt : hasher x % ns < nd.length :=
      lt_of_lt_of_le (Nat.mod_lt _ h0) hle
    rw [List.foldl_cons]
    have hstep : rehashStep hasher ns (nd, f) x
        = (nd.set (hasher x % ns) (x :: nd.getD (hasher x % ns) []),
           if hasher x % ns < f then hasher x % ns else f) := rfl
    rw [hstep]
    obtain ⟨ihm, ihl⟩ := ih (nd.set (hasher x % ns)
      (x :: nd.getD (hasher x % ns) []))
      (if hasher x % ns < f then hasher x % ns else f)
      (by rwa [List.length_set])
    refine ⟨?_, by rwa [List.length_set] at ihl⟩
    rw [ihm, flatten_coe_set _ _ _ hlt, ← Multiset.cons_coe,
      flatten_coe_getD_set nd (hasher x % ns), ← Multiset.cons_coe,
      ← Multiset.singleton_add, ← Multiset.singleton_add]
    abel

/-- The slot loop of hashtab_rehash preserves the item multiset and the
allocation length. -/
theorem rehashLoop_items (hasher : α → Nat) (ns : Nat) (h0 : 0 < ns) :
    ∀ (n i : Nat) (acc : List (List α) × Nat), ns ≤ acc.1.length →
      (↑((hashtab_rehashLoop hasher ns n i acc).1.flatten) : Multiset α)
          = ↑acc.1.flatten ∧
      (hashtab_rehashLoop hasher ns n i acc).1.length = acc.1.length := by
  intro n
  induction n with
  | zero => intro i acc hle; exact ⟨rfl, rfl⟩
  | succ n ih =>
    intro i acc hle
    rw [hashtab_rehashLoop]
    cases hb : acc.1.getD i [] with
    | nil => exact ih (i + 1) acc hle
    | cons y ys =>
      have hlen0 : (acc.1.set i []).length = acc.1.length := List.length_set ..
      obtain ⟨m1, l1⟩ := rehashStep_foldl_items hasher ns h0 (y :: ys)
        (acc.1.set i []) ns (by rwa [hlen0])
      have hlink : (hashtab_rehashLink hasher ns (y :: ys) (acc.1.set i [])).1
          = ((y :: ys).foldl (rehashStep hasher ns) (acc.1.set i [], ns)).1 := rfl
      obtain ⟨m2, l2⟩ := ih (i + 1)
        ((hashtab_rehashLink hasher ns (y :: ys) (acc.1.set i [])).1,
         if (hashtab_rehashLink hasher ns (y :: ys) (acc.1.set i [])).2 < acc.2
         then (hashtab_rehashLink hasher ns (y :: ys) (acc.1.set i [])).2
         else acc.2)
        (by rw [hlink, l1, hlen0]; exact hle)
      refine ⟨?_, ?_⟩
      · rw [m2]
        show (↑((hashtab_rehashLink hasher ns (y :: ys)
          (acc.1.set i [])).1.flatten) : Multiset α) = ↑acc.1.flatten
        rw [hlink, m1, flatten_coe_getD_set acc.1 i, hb]
      · rw [l2]
        show (hashtab_rehashLink hasher ns (y :: ys)
          (acc.1.set i [])).1.length = acc.1.length
        rw [hlink, l1, hlen0]

/-- A rehash that does not enlarge the allocation (the shrink path) preserves
the item multiset. -/
theorem rehash_items (hasher : α → Nat) (c : Core α) (ns : Nat)
    (h0 : 0 < ns) (hns : ¬ c.size < ns) (hle : ns ≤ c.data.length) :
    (↑((hashtab_rehash hasher c ns).data.flatten) : Multiset α)
      = ↑c.data.flatten := by
  rw [hashtab_rehash, if_neg hns]
  exact (rehashLoop_items hasher ns h0 c.size 0 (c.data, ns) hle).1

/-- hashtab_remove on a steady table with no matching item: the found-item
result is absent and only the probed bucket is rewritten (to its unchanged
erasure). -/
theorem hashtab_remove_leaf_none (hasher : α → Nat) (cmp : α → α → Bool)
    (c : Core α) (k : α)
    (hf : (c.data.getD (hasher k % c.size) []).find? (fun y => cmp k y) = none) :
    hashtab_remove hasher cmp (.leaf c) k
      = (let e := (c.data.getD (hasher k % c.size) []).eraseP (fun y => cmp k y)
         (none, .leaf { c with data := c.data.set (hasher k % c.size) e })) := by
  have h1 : linklist_remove cmp k (c.data.getD (hasher k % c.size) [])
      = (none, (c.data.getD (hasher k % c.size) []).eraseP (fun y => cmp k y)) := by
    rw [linklist_remove_eq, hf]
  rw [hashtab_remove, h1]

/-- hashtab_remove on a steady table with a matching item: the first match of
the bucket is taken out, the count decremented, the first-cursor possibly
advanced, and then the shrink test is evaluated. -/
theorem hashtab_remove_leaf_some (hasher : α → Nat) (cmp : α → α → Bool)
    (c : Core α) (k : α) (v : α)
    (hf : (c.data.getD (hasher k % c.size) []).find? (fun y => cmp k y)
      = some v) :
    hashtab_remove hasher cmp (.leaf c) k
      = (let e := (c.data.getD (hasher k % c.size) []).eraseP (fun y => cmp k y)
         let nd := c.data.set (hasher k % c.size) e
         let c3 : Core α :=
           { c with
             data := nd
             length := c.length - 1
             first := if hasher k % c.size = c.first
               then hashtab_findFirst nd c.size (hasher k % c.size)
               else c.first }
         if c3.shrink ≠ 0 ∧ c3.shrink < c3.size ∧
             hashtab_load (.leaf c3) < oneMinusQ c3.threshold
         then (some v,
           .leaf { hashtab_rehash hasher c3 (max (c3.size / 2) c3.shrink)
                     with shrinks := c.shrinks + 1 })
         else (some v, .leaf c3)) := by
  have h1 : linklist_remove cmp k (c.data.getD (hasher k % c.size) [])
      = (some v,
         (c.data.getD (hasher k % c.size) []).eraseP (fun y => cmp k y)) := by
    rw [linklist_remove_eq, hf]
  rw [hashtab_remove, h1]
  dsimp only
  by_cases h : hasher k % c.size = c.first
  · simp only [if_pos h]
    rfl
  · simp only [if_neg h]
    rfl

/-- Claim C9 amended: on a steady (sibling-free) table, hashtab_remove
returns exactly the first match of the key bucket chain, and when it
succeeds the stored item multiset loses exactly that one occurrence — the
count drops by one and every other item, equal ones included, stays stored.
(With a sibling the merge can discard a nested sibling and more items
disappear: `C9_counterexample`.) -/
theorem C9_amended_thm (hasher : α → Nat) (cmp : α → α → Bool) (c : Core α)
    (k : α) (h0 : 0 < c.size) (hlen : c.size ≤ c.data.length) :
    (hashtab_remove hasher cmp (.leaf c) k).1
      = (c.data.getD (hasher k % c.size) []).find? (fun y => cmp k y) ∧
    (∀ v, (c.data.getD (hasher k % c.size) []).find? (fun y => cmp k y)
        = some v →
      (↑(htItems (.leaf c : Hashtab α)) : Multiset α)
        = v ::ₘ ↑(htItems (hashtab_remove hasher cmp (.leaf c) k).2)) := by
  have hhlt : hasher k % c.size < c.data.length :=
    lt_of_lt_of_le (Nat.mod_lt _ h0) hlen
  cases hf : (c.data.getD (hasher k % c.size) []).find? (fun y => cmp k y) with
  | none =>
    rw [hashtab_remove_leaf_none hasher cmp c k hf]
    exact ⟨rfl, fun v hv => Option.noConfusion hv⟩
  | some v0 =>
    rw [hashtab_remove_leaf_some hasher cmp c k v0 hf]
    have hsplit : (↑c.data.flatten : Multiset α)
        = v0 ::ₘ ↑((c.data.set (hasher k % c.size)
            ((c.data.getD (hasher k % c.size) []).eraseP
              (fun y => cmp k y))).flatten) := by
      rw [flatten_coe_set _ _ _ hhlt,
        flatten_coe_getD_set c.data (hasher k % c.size),
        find_coe_eraseP _ v0 _ hf, Multiset.cons_add]
    constructor
    · dsimp only
      split <;> split <;> rfl
    · intro v hv
      have hveq : v = v0 := (Option.some.inj hv).symm
      subst hveq
      dsimp only
      split
      all_goals split
      · case _ hcond =>
        obtain ⟨hs1, hs2, _⟩ := hcond
        simp only [htItems]
        rw [rehash_items]
        · exact hsplit
        · exact lt_of_lt_of_le (Nat.pos_of_ne_zero hs1) (le_max_right _ _)
        · dsimp only
          exact not_lt.2 (Nat.max_le.2 ⟨Nat.div_le_self _ _, le_of_lt hs2⟩)
        · dsimp only
          rw [List.length_set]
          exact le_trans (Nat.max_le.2 ⟨Nat.div_le_self _ _, le_of_lt hs2⟩) hlen
      · simp only [htItems]
        exact hsplit
      · case _ hcond =>
        obtain ⟨hs1, hs2, _⟩ := hcond
        simp only [htItems]
        rw [rehash_items]
        · exact hsplit
        · exact lt_of_lt_of_le (Nat.pos_of_ne_zero hs1) (le_max_right _ _)
        · dsimp only
          exact not_lt.2 (Nat.max_le.2 ⟨Nat.div_le_self _ _, le_of_lt hs2⟩)
        · dsimp only
          rw [List.length_set]
          exact le_trans (Nat.max_le.2 ⟨Nat.div_le_self _ _, le_of_lt hs2⟩) hlen
      · simp only [htItems]
        exact hsplit

/-! Size and shrink-floor bookkeeping for the shrink claim. -/

/-- hashtab_addLink changes no policy field. -/
theorem addLink_size (hasher : α → Nat) (c : Core α) (x : α) :
    (hashtab_addLink hasher c x).size = c.size := rfl

/-- hashtab_addLink keeps the shrink floor. -/
theorem addLink_shrink (hasher : α → Nat) (c : Core α) (x : α) :
    (hashtab_addLink hasher c x).shrink = c.shrink := rfl

/-- hashtab_linkAdd changes no policy field. -/
theorem linkAdd_fields (hasher : α → Nat) :
    ∀ (l : List α) (c : Core α),
      (hashtab_linkAdd hasher c l).size = c.size ∧
      (hashtab_linkAdd hasher c l).shrink = c.shrink := by
  intro l
  induction l with
  | nil => intro c; exact ⟨rfl, rfl⟩
  | cons x xs ih =>
    intro c
    rw [hashtab_linkAdd, List.foldl_cons]
    exact ih (hashtab_addLink hasher c x)

/-- The migration loop changes no policy field of either core. -/
theorem moveOverLoop_fields (hasher : α → Nat) :
    ∀ (n : Nat) (c o : Core α),
      (hashtab_moveOverLoop hasher n c o).1.size = c.size ∧
      (hashtab_moveOverLoop hasher n c o).1.shrink = c.shrink ∧
      (hashtab_moveOverLoop hasher n c o).2.size = o.size ∧
      (hashtab_moveOverLoop hasher n c o).2.shrink = o.shrink := by
  intro n
  induction n with
  | zero => intro c o; exact ⟨rfl, rfl, rfl, rfl⟩
  | succ n ih =>
    intro c o
    rw [hashtab_moveOverLoop]
    by_cases h : 0 < c.length
    · rw [if_pos h]
      obtain ⟨a1, a2, a3, a4⟩ := ih
        { c with
          data := c.data.set c.first [],
          length := c.length - (c.data.getD c.first []).length,
          first := hashtab_findFirst (c.data.set c.first []) c.size c.first }
        (hashtab_linkAdd hasher o (c.data.getD c.first []))
      obtain ⟨b1, b2⟩ := linkAdd_fields hasher (c.data.getD c.first []) o
      exact ⟨a1, a2, a3.trans b1, a4.trans b2⟩
    · rw [if_neg h]
      exact ⟨rfl, rfl, rfl, rfl⟩

/-- Replacing the core keeps the replacement as the new core. -/
theorem withCore_core_proj (t : Hashtab α) (d : Core α) :
    (t.withCore d).core = d := by
  cases t <;> rfl

/-- The top table of an invariant chain respects its own shrink floor. -/
theorem HtInv_top (t : Hashtab α) (h : HtInv t) :
    t.core.shrink ≤ t.core.size := by
  cases t with
  | leaf c => exact h
  | node c o => exact h.1

/-- Replacing the core of an invariant chain by one with the same size and
floor preserves the invariant. -/
theorem HtInv_withCore (o : Hashtab α) (d : Core α) (h : HtInv o)
    (hs : d.size = o.core.size) (hk : d.shrink = o.core.shrink) :
    HtInv (o.withCore d) := by
  cases o with
  | leaf oc =>
    show d.shrink ≤ d.size
    rw [hs, hk]
    exact h
  | node oc oo =>
    obtain ⟨h1, h2, h3, h4⟩ := h
    exact ⟨by rw [hs, hk]; exact h1, h2, by rw [hs]; exact h3,
      by rw [hs]; exact h4⟩

/-- One hashtab_moveOver step preserves the invariant, keeps the shrink
floor of the top table, and never decreases its size (the merge adopts the
strictly larger sibling size). -/
theorem moveOver_inv (hasher : α → Nat) (c : Core α) (o : Hashtab α)
    (h1 : c.shrink ≤ c.size) (h2 : HtInv o) (h3 : c.size ≤ o.core.size)
    (h4 : c.size ≤ o.core.shrink ∨ o.core.shrink = 0) :
    HtInv (hashtab_moveOver hasher (.node c o)) ∧
    (hashtab_moveOver hasher (.node c o)).core.shrink = c.shrink ∧
    c.size ≤ (hashtab_moveOver hasher (.node c o)).core.size := by
  rw [hashtab_moveOver]
  obtain ⟨a1, a2, a3, a4⟩ :=
    moveOverLoop_fields hasher (c.size / c.moveR) c o.core
  by_cases hz :
      (hashtab_moveOverLoop hasher (c.size / c.moveR) c o.core).1.length = 0
  · rw [if_pos hz]
    refine ⟨?_, ?_, ?_⟩
    · show (mergeCore _ _).shrink ≤ (mergeCore _ _).size
      show (hashtab_moveOverLoop hasher (c.size / c.moveR) c o.core).1.shrink
        ≤ (hashtab_moveOverLoop hasher (c.size / c.moveR) c o.core).2.size
      rw [a2, a3]
      exact le_trans h1 h3
    · show (hashtab_moveOverLoop hasher (c.size / c.moveR) c o.core).1.shrink = c.shrink
      exact a2
    · show c.size ≤ (hashtab_moveOverLoop hasher (c.size / c.moveR) c o.core).2.size
      rw [a3]
      exact h3
  · rw [if_neg hz]
    refine ⟨⟨?_, ?_, ?_, ?_⟩, a2, ?_⟩
    · rw [a1, a2]; exact h1
    · exact HtInv_withCore o _ h2 a3 a4
    · rw [a1, withCore_core_proj, a3]; exact h3
    · rw [a1, withCore_core_proj, a4]; exact h4
    · show c.size ≤
        (hashtab_moveOverLoop hasher (c.size / c.moveR) c o.core).1.size
      rw [a1]

/-- hashtab_add preserves the invariant, keeps the shrink floor of the top
table, and never decreases its size: adds only ever grow. -/
theorem addF_inv (hasher : α → Nat) :
    ∀ (fuel : Nat) (t : Hashtab α) (x : α) (r : Nat) (t' : Hashtab α),
      HtInv t → hashtab_addF hasher fuel t x = some (r, t') →
      HtInv t' ∧ t'.core.shrink = t.core.shrink ∧
        t.core.size ≤ t'.core.size := by
  intro fuel
  induction fuel with
  | zero => intro t x r t' _ h; exact absurd h (by rw [hashtab_addF]; simp)
  | succ fuel ih =>
    intro t x r t' hinv h
    cases t with
    | node c o =>
      rw [hashtab_addF] at h
      cases ho : hashtab_addF hasher fuel o x with
      | none => rw [ho] at h; exact absurd h (by simp)
      | some p =>
        obtain ⟨r0, o'⟩ := p
        rw [ho] at h
        simp only [Option.some.injEq, Prod.mk.injEq] at h
        obtain ⟨hr, ht'⟩ := h
        obtain ⟨h1, h2, h3, h4⟩ := hinv
        obtain ⟨io1, io2, io3⟩ := ih o x r0 o' h2 ho
        obtain ⟨m1, m2, m3⟩ := moveOver_inv hasher c o' h1 io1
          (le_trans h3 io3) (by rw [io2]; exact h4)
        subst ht'
        exact ⟨m1, m2, m3⟩
    | leaf c =>
      have hs : c.shrink ≤ c.size := hinv
      rw [hashtab_addF] at h
      by_cases hl : hashtab_load (.leaf c) > c.threshold
      · rw [if_pos hl, hashtab_grow] at h
        by_cases hm : c.moveR = 1
        · rw [if_pos hm] at h
          simp only [Option.some.injEq, Prod.mk.injEq] at h
          obtain ⟨hr, ht'⟩ := h
          subst ht'
          refine ⟨?_, rfl, ?_⟩
          · show c.shrink ≤ c.size * 2
            omega
          · show c.size ≤ c.size * 2
            omega
        · rw [if_neg hm] at h
          dsimp only at h
          cases hof : hashtab_addF hasher fuel
            (.leaf (makeCore (c.size * 2) c.threshold c.moveR
              (c.shrink != 0))) x with
          | none => rw [hof] at h; exact absurd h (by simp)
          | some p =>
            obtain ⟨r0, o1'⟩ := p
            rw [hof] at h
            simp only [Option.some.injEq, Prod.mk.injEq] at h
            obtain ⟨hr, ht'⟩ := h
            have hfresh : HtInv (.leaf (makeCore (c.size * 2) c.threshold
                c.moveR (c.shrink != 0)) : Hashtab α) := by
              show (if (c.shrink != 0) = true then c.size * 2 else 0)
                ≤ c.size * 2
              split <;> omega
            obtain ⟨io1, io2, io3⟩ := ih _ x r0 o1' hfresh hof
            have hedge : c.size ≤ o1'.core.shrink ∨ o1'.core.shrink = 0 := by
              rw [io2]
              show c.size ≤ (if (c.shrink != 0) = true then c.size * 2 else 0)
                  ∨ (if (c.shrink != 0) = true then c.size * 2 else 0) = 0
              split
              · left; omega
              · right; rfl
            obtain ⟨m1, m2, m3⟩ := moveOver_inv hasher
              { c with grows := c.grows + 1 } o1'
              (show c.shrink ≤ c.size from hs) io1
              (le_trans (show c.size ≤ c.size * 2 by omega) io3) hedge
            subst ht'
            exact ⟨m1, m2, m3⟩
      · rw [if_neg hl] at h
        simp only [Option.some.injEq, Prod.mk.injEq] at h
        obtain ⟨hr, ht'⟩ := h
        subst ht'
        exact ⟨hs, rfl, le_refl _⟩

/-- hashtab_remove preserves the invariant, keeps the shrink floor of the
top table, and keeps its size at its previous value or above the floor. -/
theorem remove_inv (hasher : α → Nat) (cmp : α → α → Bool) :
    ∀ (t : Hashtab α) (k : α), HtInv t →
      HtInv (hashtab_remove hasher cmp t k).2 ∧
      (hashtab_remove hasher cmp t k).2.core.shrink = t.core.shrink ∧
      (t.core.shrink = 0 →
        t.core.size ≤ (hashtab_remove hasher cmp t k).2.core.size) ∧
      (t.core.shrink ≠ 0 →
        t.core.shrink ≤ (hashtab_remove hasher cmp t k).2.core.size) := by
  intro t
  induction t with
  | leaf c =>
    intro k hinv
    have hs : c.shrink ≤ c.size := hinv
    cases hf : (c.data.getD (hasher k % c.size) []).find? (fun y => cmp k y) with
    | none =>
      rw [hashtab_remove_leaf_none hasher cmp c k hf]
      exact ⟨hs, rfl, fun _ => le_refl _, fun _ => hs⟩
    | some v =>
      rw [hashtab_remove_leaf_some hasher cmp c k v hf]
      dsimp only
      split
      all_goals split
      · case _ hcond =>
        obtain ⟨hs1, hs2, _⟩ := hcond
        refine ⟨?_, rfl, ?_, ?_⟩
        · show c.shrink ≤ max (c.size / 2) c.shrink
          exact le_max_right _ _
        · intro h0
          exact absurd h0 hs1
        · intro _
          show c.shrink ≤ max (c.size / 2) c.shrink
          exact le_max_right _ _
      · exact ⟨hs, rfl, fun _ => le_refl _, fun _ => hs⟩
      · case _ hcond =>
        obtain ⟨hs1, hs2, _⟩ := hcond
        refine ⟨?_, rfl, ?_, ?_⟩
        · show c.shrink ≤ max (c.size / 2) c.shrink
          exact le_max_right _ _
        · intro h0
          exact absurd h0 hs1
        · intro _
          show c.shrink ≤ max (c.size / 2) c.shrink
          exact le_max_right _ _
      · exact ⟨hs, rfl, fun _ => le_refl _, fun _ => hs⟩
  | node c o ih =>
    intro k hinv
    obtain ⟨h1, h2, h3, h4⟩ := hinv
    rw [hashtab_remove, linklist_remove_eq]
    dsimp only
    cases hf : (c.data.getD (hasher k % c.size) []).find? (fun y => cmp k y) with
    | none =>
      obtain ⟨r1, r2, r3, r4⟩ := ih k h2
      have hedge1 : c.size ≤ (hashtab_remove hasher cmp o k).2.core.size := by
        by_cases hz : o.core.shrink = 0
        · exact le_trans h3 (r3 hz)
        · rcases h4 with h4a | h4b
          · exact le_trans h4a (r4 hz)
          · exact absurd h4b hz
      have hedge2 : c.size ≤ (hashtab_remove hasher cmp o k).2.core.shrink
          ∨ (hashtab_remove hasher cmp o k).2.core.shrink = 0 := by
        rw [r2]
        exact h4
      obtain ⟨m1, m2, m3⟩ := moveOver_inv hasher
        { c with data := c.data.set (hasher k % c.size) ((c.data.getD (hasher k % c.size) []).eraseP (fun y => cmp k y)) }
        (hashtab_remove hasher cmp o k).2
        h1 r1 hedge1 hedge2
      exact ⟨m1, m2, fun _ => m3, fun _ => le_trans h1 m3⟩
    | some v =>
      obtain ⟨m1, m2, m3⟩ := moveOver_inv hasher
        { c with data := c.data.set (hasher k % c.size) ((c.data.getD (hasher k % c.size) []).eraseP (fun y => cmp k y)), length := c.length - 1 }
        o h1 h2 h3 h4
      exact ⟨m1, m2, fun _ => m3, fun _ => le_trans h1 m3⟩

/-- The in-place overwrite of hashtab_insert changes no size, floor or chain
structure, so it preserves the invariant. -/
theorem findReplace_inv (hasher : α → Nat) (cmp : α → α → Bool) :
    ∀ (t : Hashtab α) (x v : α) (t' : Hashtab α),
      hashtab_findReplace hasher cmp t x = some (v, t') → HtInv t →
      HtInv t' ∧ t'.core.shrink = t.core.shrink ∧
        t'.core.size = t.core.size := by
  intro t
  induction t with
  | leaf c =>
    intro x v t' h hinv
    rw [hashtab_findReplace] at h
    cases hb : bucketFindReplace cmp x (c.data.getD (hasher x % c.size) []) with
    | none => rw [hb] at h; exact absurd h (by simp)
    | some p =>
      obtain ⟨v2, b2⟩ := p
      rw [hb] at h
      simp only [Option.some.injEq, Prod.mk.injEq] at h
      obtain ⟨rfl, ht'⟩ := h
      subst ht'
      exact ⟨hinv, rfl, rfl⟩
  | node c o ih =>
    intro x v t' h hinv
    obtain ⟨h1, h2, h3, h4⟩ := hinv
    rw [hashtab_findReplace] at h
    cases hb : bucketFindReplace cmp x (c.data.getD (hasher x % c.size) []) with
    | some p =>
      obtain ⟨v2, b2⟩ := p
      rw [hb] at h
      simp only [Option.some.injEq, Prod.mk.injEq] at h
      obtain ⟨rfl, ht'⟩ := h
      subst ht'
      exact ⟨⟨h1, h2, h3, h4⟩, rfl, rfl⟩
    | none =>
      rw [hb] at h
      cases ho : hashtab_findReplace hasher cmp o x with
      | none => rw [ho] at h; exact absurd h (by simp)
      | some p =>
        obtain ⟨v2, o2⟩ := p
        rw [ho] at h
        simp only [Option.some.injEq, Prod.mk.injEq] at h
        obtain ⟨rfl, ht'⟩ := h
        subst ht'
        obtain ⟨i1, i2, i3⟩ := ih x v2 o2 ho h2
        exact ⟨⟨h1, i1, by rw [i3]; exact h3, by rw [i2]; exact h4⟩, rfl, rfl⟩

/-- On a migrating table, hashtab_remove never decreases the size of the top
table: the only size change there is the merge, which adopts the larger
sibling size. -/
theorem remove_node_size (hasher : α → Nat) (cmp : α → α → Bool)
    (c : Core α) (o : Hashtab α) (k : α) (hinv : HtInv (.node c o)) :
    c.size ≤ (hashtab_remove hasher cmp (.node c o) k).2.core.size := by
  obtain ⟨h1, h2, h3, h4⟩ := hinv
  rw [hashtab_remove, linklist_remove_eq]
  dsimp only
  cases hf : (c.data.getD (hasher k % c.size) []).find? (fun y => cmp k y) with
  | none =>
    obtain ⟨r1, r2, r3, r4⟩ := remove_inv hasher cmp o k h2
    have hedge1 : c.size ≤ (hashtab_remove hasher cmp o k).2.core.size := by
      by_cases hz : o.core.shrink = 0
      · exact le_trans h3 (r3 hz)
      · rcases h4 with h4a | h4b
        · exact le_trans h4a (r4 hz)
        · exact absurd h4b hz
    have hedge2 : c.size ≤ (hashtab_remove hasher cmp o k).2.core.shrink
        ∨ (hashtab_remove hasher cmp o k).2.core.shrink = 0 := by
      rw [r2]
      exact h4
    exact (moveOver_inv hasher
      { c with data := c.data.set (hasher k % c.size) ((c.data.getD (hasher k % c.size) []).eraseP (fun y => cmp k y)) }
      (hashtab_remove hasher cmp o k).2 h1 r1 hedge1 hedge2).2.2
  | some v =>
    exact (moveOver_inv hasher
      { c with data := c.data.set (hasher k % c.size) ((c.data.getD (hasher k % c.size) []).eraseP (fun y => cmp k y)), length := c.length - 1 }
      o h1 h2 h3 h4).2.2

/-- The characterization of a size decrease under hashtab_remove: it happens
only in steady state, only with a non-zero shrink floor, only after a
successful removal, only when the decremented load is below 1 minus the
threshold, and the new size is exactly max(size / 2, floor). -/
theorem remove_shrink_char (hasher : α → Nat) (cmp : α → α → Bool)
    (t : Hashtab α) (k : α) (hinv : HtInv t)
    (hdec : (hashtab_remove hasher cmp t k).2.core.size < t.core.size) :
    t.sub = none ∧ t.core.shrink ≠ 0 ∧
    ((hashtab_remove hasher cmp t k).1).isSome = true ∧
    ((t.core.length - 1 : Nat) : ℚ) / (t.core.size : ℚ)
      < 1 - t.core.threshold ∧
    (hashtab_remove hasher cmp t k).2.core.size
      = max (t.core.size / 2) t.core.shrink := by
  cases t with
  | node c o =>
    exact absurd hdec (not_lt.2 (remove_node_size hasher cmp c o k hinv))
  | leaf c =>
    cases hf : (c.data.getD (hasher k % c.size) []).find? (fun y => cmp k y) with
    | none =>
      rw [hashtab_remove_leaf_none hasher cmp c k hf] at hdec
      exact absurd hdec (lt_irrefl c.size)
    | some v =>
      rw [hashtab_remove_leaf_some hasher cmp c k v hf] at hdec ⊢
      dsimp only at hdec ⊢
      by_cases hc1 : hasher k % c.size = c.first
      · simp only [if_pos hc1] at hdec ⊢
        split at hdec
        · case _ hcond =>
          rw [if_pos hcond]
          refine ⟨rfl, hcond.1, rfl, ?_, rfl⟩
          have h2 := hcond.2.2
          rw [hashtab_load_eq, oneMinusQ_eq] at h2
          exact h2
        · exact absurd hdec (lt_irrefl c.size)
      · simp only [if_neg hc1] at hdec ⊢
        split at hdec
        · case _ hcond =>
          rw [if_pos hcond]
          refine ⟨rfl, hcond.1, rfl, ?_, rfl⟩
          have h2 := hcond.2.2
          rw [hashtab_load_eq, oneMinusQ_eq] at h2
          exact h2
        · exact absurd hdec (lt_irrefl c.size)

/-- One public operation preserves the invariant, keeps the shrink floor,
and keeps the size at or above a non-zero floor. -/
theorem runOp_inv (hasher : α → Nat) (cmp : α → α → Bool) (t : Hashtab α)
    (op : HtOp α) (t' : Hashtab α) (hinv : HtInv t)
    (h : runOp hasher cmp t op = some t') :
    HtInv t' ∧ t'.core.shrink = t.core.shrink ∧
    (t.core.shrink ≠ 0 → t.core.shrink ≤ t'.core.size) := by
  cases op with
  | add x =>
    rw [runOp] at h
    cases ha : hashtab_add hasher t x with
    | none => rw [ha] at h; exact absurd h (by simp)
    | some p =>
      obtain ⟨r0, t2⟩ := p
      rw [ha] at h
      simp only [Option.map_some', Option.some.injEq] at h
      subst h
      rw [hashtab_add] at ha
      obtain ⟨a1, a2, a3⟩ := addF_inv hasher _ t x r0 t2 hinv ha
      exact ⟨a1, a2, fun _ => le_trans (HtInv_top t hinv) a3⟩
  | ins x =>
    rw [runOp, hashtab_insert] at h
    cases hfr : hashtab_findReplace hasher cmp t x with
    | some p =>
      obtain ⟨v, t2⟩ := p
      rw [hfr] at h
      simp only [Option.map_some', Option.some.injEq] at h
      subst h
      obtain ⟨a1, a2, a3⟩ := findReplace_inv hasher cmp t x v t2 hfr hinv
      exact ⟨a1, a2, fun _ => by rw [a3]; exact HtInv_top t hinv⟩
    | none =>
      rw [hfr] at h
      cases ha : hashtab_add hasher t x with
      | none => rw [ha] at h; exact absurd h (by simp)
      | some p =>
        obtain ⟨r0, t2⟩ := p
        rw [ha] at h
        simp only [Option.map_some', Option.some.injEq] at h
        subst h
        rw [hashtab_add] at ha
        obtain ⟨a1, a2, a3⟩ := addF_inv hasher _ t x r0 t2 hinv ha
        exact ⟨a1, a2, fun _ => le_trans (HtInv_top t hinv) a3⟩
  | rem k =>
    rw [runOp] at h
    simp only [Option.some.injEq] at h
    subst h
    obtain ⟨r1, r2, r3, r4⟩ := remove_inv hasher cmp t k hinv
    exact ⟨r1, r2, r4⟩

/-- A whole operation sequence preserves the invariant, the shrink floor,
and the floor bound on the size. -/
theorem runOps_inv (hasher : α → Nat) (cmp : α → α → Bool) :
    ∀ (ops : List (HtOp α)) (t t' : Hashtab α), HtInv t →
      runOps hasher cmp t ops = some t' →
      HtInv t' ∧ t'.core.shrink = t.core.shrink ∧
      (t.core.shrink ≠ 0 → t.core.shrink ≤ t'.core.size) := by
  intro ops
  induction ops with
  | nil =>
    intro t t' hinv h
    rw [runOps] at h
    simp only [Option.some.injEq] at h
    subst h
    exact ⟨hinv, rfl, fun _ => HtInv_top t hinv⟩
  | cons op ops ih =>
    intro t t' hinv h
    rw [runOps] at h
    cases hop : runOp hasher cmp t op with
    | none => rw [hop] at h; exact absurd h (by simp)
    | some t1 =>
      rw [hop] at h
      obtain ⟨a1, a2, a3⟩ := runOp_inv hasher cmp t op t1 hinv hop
      obtain ⟨b1, b2, b3⟩ := ih t1 t' a1 h
      refine ⟨b1, b2.trans a2, fun hnz => ?_⟩
      rw [← a2] at hnz ⊢
      exact b3 hnz

/-- Claim C5: a shrink rehash happens only in steady state, only with a
non-zero shrink floor, only on a successful remove, only when the load is
below 1 minus the threshold, and lands at max(size / 2, floor); adds never
decrease the size; and a table created with shrinking enabled never reports
a size below its initial size, after any operation sequence. -/
theorem C5_theorem (hasher : α → Nat) (cmp : α → α → Bool) (size : Nat)
    (th : ℚ) (moveR : Nat) (sf : Bool) (ops : List (HtOp α))
    (t' : Hashtab α)
    (hrun : runOps hasher cmp (hashtab_make size th moveR sf) ops = some t') :
    (∀ k, (hashtab_remove hasher cmp t' k).2.core.size < t'.core.size →
      t'.sub = none ∧ t'.core.shrink ≠ 0 ∧
      ((hashtab_remove hasher cmp t' k).1).isSome = true ∧
      ((t'.core.length - 1 : Nat) : ℚ) / (t'.core.size : ℚ)
        < 1 - t'.core.threshold ∧
      (hashtab_remove hasher cmp t' k).2.core.size
        = max (t'.core.size / 2) t'.core.shrink) ∧
    (∀ (x : α) (p : Nat × Hashtab α), hashtab_add hasher t' x = some p →
      t'.core.size ≤ p.2.core.size) ∧
    (sf = true → 0 < size → t'.core.shrink = size ∧ size ≤ t'.core.size) := by
  have hinv0 : HtInv (hashtab_make size th moveR sf : Hashtab α) := by
    show (if sf then size else 0) ≤ size
    split <;> omega
  obtain ⟨hi, hsh, hfloor⟩ := runOps_inv hasher cmp ops _ t' hinv0 hrun
  refine ⟨fun k hdec => remove_shrink_char hasher cmp t' k hi hdec,
    ?_, ?_⟩
  · intro x p hadd
    obtain ⟨r0, t2⟩ := p
    rw [hashtab_add] at hadd
    exact (addF_inv hasher _ t' x r0 t2 hi hadd).2.2
  · intro hsf h0
    subst hsf
    have hmk : (hashtab_make size th moveR true : Hashtab α).core.shrink
        = size := by
      show (if true then size else 0) = size
      rfl
    rw [hmk] at hsh hfloor
    exact ⟨hsh, hfloor (by omega)⟩

/-- Witness for C5_theorem: the shrink-enabled table tabE keeps its floor of
8 and never reports a size below 8 across the workload opsE. -/
theorem C5_witness : tabE2.core.shrink = 8 ∧ 8 ≤ tabE2.core.size :=
  (C5_theorem natHash natEq 8 (mkRat 3 4) 4 true opsE tabE2
    (by decide)).2.2 rfl (by decide)

/-- Witness for C9_amended_thm: removing the duplicated key 1 from tabF
removes exactly one of its two copies. -/
theorem C9_witness :
    (↑(htItems (.leaf tabFc : Hashtab Nat)) : Multiset Nat)
      = 1 ::ₘ ↑(htItems (hashtab_remove natHash natEq (.leaf tabFc) 1).2) :=
  (C9_amended_thm natHash natEq tabFc 1 (by decide) (by decide)).2 1 (by decide)

end HashTab
